import Mathlib

/-!
Verification of the pinning subsystem of the orama repository.

The development shallowly embeds `applyPinningRules` from
`src/packages/orama/src/components/pinning-manager.ts` together with the
narrow interfaces it consumes.  JavaScript `Map`s are embedded as
association lists (JS `Map` preserves insertion order; `Map.set` on an
existing key updates the value in place), JS `Set`s as lists extended at
the end, and the imperative push-loops of the source as structural
recursions producing the pushed elements in order.  `Array.prototype.sort`
is guaranteed stable by the ECMAScript specification, so it is embedded as
insertion sort, the canonical stable sort.
-/

namespace Orama

/-- Internal document identifier, as produced by the internal-document-id
store of the engine. -/
abbrev InternalDocumentID := Nat

/-- A scored result entry: `(internalDocId, score)`.  Scores are embedded
as integers (`BASE_PIN_SCORE - position` must not truncate). -/
abbrev TokenScore := InternalDocumentID × Int

/-- String-match mode of a pin condition. -/
inductive Anchoring where
  | is
  | starts_with
  | ends_with
  | contains
deriving DecidableEq, Repr

/-- A single condition of a pin rule. -/
structure Condition where
  anchoring : Anchoring
  pattern : String
deriving DecidableEq, Repr

/-- A single promotion: place the document with external id `doc_id` at
slot `position` of the final result list. -/
structure Promotion where
  doc_id : String
  position : Nat
deriving DecidableEq, Repr

/-- Consequence of a pin rule: the ordered list of promotions. -/
structure Consequence where
  promote : List Promotion
deriving DecidableEq, Repr

/-- A pinning rule. -/
structure PinRule where
  id : String
  conditions : List Condition
  consequence : Consequence
deriving DecidableEq, Repr

/-- Modelled from the spec: the pinning store (§3, `PinningStore`), whose
CRUD component lives in `pinning.ts`, a file that is not part of `src/`.
Only the rule sequence in store-iteration order is needed here. -/
structure PinningStore where
  rules : List PinRule
deriving DecidableEq, Repr

/-- The engine capabilities consumed by the splicer: translation of an
external document id to an internal one (`getInternalDocumentId` over
`orama.internalDocumentIDStore`), and the document-existence oracle
(`orama.documentsStore.get` over `orama.data.docs`, used only for its
truthiness). -/
structure OramaEngine where
  internalIdOf : String → Option InternalDocumentID
  hasDoc : InternalDocumentID → Bool

/-- Embedding of `getInternalDocumentId(orama.internalDocumentIDStore, d)`. -/
def getInternalDocumentId (o : OramaEngine) (d : String) : Option InternalDocumentID :=
  o.internalIdOf d

/-- Lower-cased character sequence of a string (the spec's normalization:
simple case folding, no tokenization). -/
def normalize (s : String) : List Char :=
  s.toList.map Char.toLower

/-- Substring test: does `q` contain `p` as a contiguous subsequence? -/
def listHasSub : List Char → List Char → Bool
  | q, p =>
    if p.isPrefixOf q then true
    else match q with
      | [] => false
      | _ :: rest => listHasSub rest p

/-- Modelled from the spec: condition evaluation of the Rule Matcher
(§4.2), implemented in `pinning.ts`, which is not part of `src/`. -/
def conditionMatches (q : List Char) (c : Condition) : Bool :=
  let p := normalize c.pattern
  match c.anchoring with
  | .is => q == p
  | .starts_with => p.isPrefixOf q
  | .ends_with => p.isSuffixOf q
  | .contains => listHasSub q p

/-- Modelled from the spec: `getMatchingRules` (Rule Matcher, §4.2),
implemented in `pinning.ts`, which is not part of `src/`.  An absent,
empty or whitespace-only query matches nothing; otherwise a rule matches
iff all its conditions hold against the normalized query, and matching
rules are returned in store-iteration order. -/
def getMatchingRules (store : PinningStore) (searchTerm : Option String) : List PinRule :=
  match searchTerm with
  | none => []
  | some t =>
    if t.toList.all Char.isWhitespace then []
    else store.rules.filter fun r => r.conditions.all (conditionMatches (normalize t))

/-- Association-list embedding of JS `Map.set`: update in place if the key
is present (keeping its insertion position), otherwise append. -/
def assocSet {β : Type} : List (Nat × β) → Nat → β → List (Nat × β)
  | [], k, v => [(k, v)]
  | (k', v') :: rest, k, v =>
    if k' = k then (k, v) :: rest else (k', v') :: assocSet rest k v

/-- State of the promotion-resolution loop of `applyPinningRules`:
`pinnedInternalIds` embeds the JS `Set`, `promotionsMap` the JS `Map` from
internal id to desired position, `positionsTaken` the JS `Set` of claimed
positions. -/
structure ResolveState where
  pinnedInternalIds : List InternalDocumentID
  promotionsMap : List (InternalDocumentID × Nat)
  positionsTaken : List Nat
deriving DecidableEq, Repr

/-- One iteration of the `for (const promotion of allPromotions)` loop of
`applyPinningRules` (pinning-manager.ts lines 37-62). -/
def resolveStep (o : OramaEngine) (s : ResolveState) (promotion : Promotion) : ResolveState :=
  match getInternalDocumentId o promotion.doc_id with
  | none => s
  | some internalId =>
    match s.promotionsMap.lookup internalId with
    | some existingPosition =>
      if promotion.position < existingPosition then
        { s with promotionsMap := assocSet s.promotionsMap internalId promotion.position }
      else s
    | none =>
      if s.positionsTaken.contains promotion.position then s
      else
        { pinnedInternalIds := s.pinnedInternalIds ++ [internalId]
          promotionsMap := s.promotionsMap ++ [(internalId, promotion.position)]
          positionsTaken := s.positionsTaken ++ [promotion.position] }

/-- The comparator `(a, b) => a.position - b.position` of the promotion
sort, as a relation. -/
def promLe (a b : Promotion) : Prop :=
  a.position ≤ b.position

instance : DecidableRel promLe := fun a b => Nat.decLe a.position b.position

/-- Base score sentinel for pinned documents (`BASE_PIN_SCORE`). -/
def BASE_PIN_SCORE : Int := 1000000

/-- The `for (const [internalId, position] of promotionsMap.entries())`
loop building `pinnedResults` (pinning-manager.ts lines 77-93): a document
present in the original results gets `BASE_PIN_SCORE - position`, a
document promoted from outside gets score `0` if it exists in the document
store and is dropped otherwise. -/
def buildPinned (o : OramaEngine) (uniqueDocsArray : List TokenScore) :
    List (InternalDocumentID × Nat) → List TokenScore
  | [] => []
  | (internalId, position) :: rest =>
    match uniqueDocsArray.find? (fun ts => ts.1 == internalId) with
    | some _ => (internalId, BASE_PIN_SCORE - position) :: buildPinned o uniqueDocsArray rest
    | none =>
      if o.hasDoc internalId then (internalId, 0) :: buildPinned o uniqueDocsArray rest
      else buildPinned o uniqueDocsArray rest

/-- Rank used by the `pinnedResults.sort` comparator:
`promotionsMap.get(a[0]) ?? Infinity`, with `Infinity` embedded as `⊤`. -/
def pinRank (m : List (InternalDocumentID × Nat)) (ts : TokenScore) : WithTop Nat :=
  match m.lookup ts.1 with
  | some p => (p : WithTop Nat)
  | none => ⊤

/-- The `pinnedResults.sort((a, b) => posA - posB)` comparator as a
relation. -/
def pinLe (m : List (InternalDocumentID × Nat)) (a b : TokenScore) : Prop :=
  pinRank m a ≤ pinRank m b

instance (m : List (InternalDocumentID × Nat)) : DecidableRel (pinLe m) := fun a b =>
  inferInstanceAs (Decidable (pinRank m a ≤ pinRank m b))

/-- Construction of the `pinnedByPosition` map (pinning-manager.ts lines
105-109): each pinned result is keyed by its position from
`promotionsMap`.  The non-null assertion `promotionsMap.get(...)!` is
embedded by skipping an (unreachable) missing key, which is observably
equivalent: a JS entry keyed `undefined` is never hit by the numeric walk
nor appended. -/
def buildPinnedByPosition (m : List (InternalDocumentID × Nat))
    (sortedPinned : List TokenScore) : List (Nat × TokenScore) :=
  sortedPinned.foldl
    (fun acc pr =>
      match m.lookup pr.1 with
      | some p => assocSet acc p pr
      | none => acc)
    []

/-- The interleaving `while` loop of `applyPinningRules` (pinning-manager.ts
lines 111-130), as a structural recursion on the remaining loop bound
(the loop runs while `currentPosition < unpinned.length + pinned.length`,
and `currentPosition` increases by one per iteration).  Arguments:
remaining iterations, `currentPosition`, `unpinnedIndex`.  The produced
list is the sequence of pushed elements. -/
def walkAux (pb : List (Nat × TokenScore)) (unp : List TokenScore) :
    Nat → Nat → Nat → List TokenScore
  | 0, _, _ => []
  | fuel + 1, cur, ui =>
    match pb.lookup cur with
    | some pr => pr :: walkAux pb unp fuel (cur + 1) ui
    | none =>
      if h : ui < unp.length then
        unp.get ⟨ui, h⟩ :: walkAux pb unp fuel (cur + 1) (ui + 1)
      else []

/-- The trailing `for (const [position, pinnedResult] of
pinnedByPosition.entries())` loop (pinning-manager.ts lines 133-137):
append each entry whose position is at least the current length of the
list built so far. -/
def appendFold (pb : List (Nat × TokenScore)) (built : List TokenScore) : List TokenScore :=
  pb.foldl (fun acc e => if acc.length ≤ e.1 then acc ++ [e.2] else acc) built

/-- The flattened promotion sequence
`matchingRules.flatMap((rule) => rule.consequence.promote)`. -/
def flattenedPromotionsOf (store : PinningStore) (searchTerm : Option String) : List Promotion :=
  (getMatchingRules store searchTerm).flatMap fun r => r.consequence.promote

/-- The promotion sequence after
`allPromotions.sort((a, b) => a.position - b.position)` (stable). -/
def sortedPromotionsOf (store : PinningStore) (searchTerm : Option String) : List Promotion :=
  (flattenedPromotionsOf store searchTerm).insertionSort promLe

/-- The state of the resolution loop after processing every promotion. -/
def resolveStateOf (o : OramaEngine) (store : PinningStore) (searchTerm : Option String) :
    ResolveState :=
  (sortedPromotionsOf store searchTerm).foldl (resolveStep o) ⟨[], [], []⟩

/-- The final `promotionsMap`. -/
def promotionsMapOf (o : OramaEngine) (store : PinningStore) (searchTerm : Option String) :
    List (InternalDocumentID × Nat) :=
  (resolveStateOf o store searchTerm).promotionsMap

/-- The final `pinnedInternalIds`. -/
def pinnedIdsOf (o : OramaEngine) (store : PinningStore) (searchTerm : Option String) :
    List InternalDocumentID :=
  (resolveStateOf o store searchTerm).pinnedInternalIds

/-- `unpinnedResults`: the original results whose id was not pinned. -/
def unpinnedOf (o : OramaEngine) (store : PinningStore) (uniqueDocsArray : List TokenScore)
    (searchTerm : Option String) : List TokenScore :=
  uniqueDocsArray.filter fun ts => !(pinnedIdsOf o store searchTerm).contains ts.1

/-- `pinnedResults` before sorting. -/
def pinnedResultsOf (o : OramaEngine) (store : PinningStore) (uniqueDocsArray : List TokenScore)
    (searchTerm : Option String) : List TokenScore :=
  buildPinned o uniqueDocsArray (promotionsMapOf o store searchTerm)

/-- `pinnedResults` after the stable sort by assigned position. -/
def sortedPinnedOf (o : OramaEngine) (store : PinningStore) (uniqueDocsArray : List TokenScore)
    (searchTerm : Option String) : List TokenScore :=
  (pinnedResultsOf o store uniqueDocsArray searchTerm).insertionSort
    (pinLe (promotionsMapOf o store searchTerm))

/-- The `pinnedByPosition` map. -/
def pinnedByPositionOf (o : OramaEngine) (store : PinningStore) (uniqueDocsArray : List TokenScore)
    (searchTerm : Option String) : List (Nat × TokenScore) :=
  buildPinnedByPosition (promotionsMapOf o store searchTerm)
    (sortedPinnedOf o store uniqueDocsArray searchTerm)

/-- The list built by the interleaving walk. -/
def walkOf (o : OramaEngine) (store : PinningStore) (uniqueDocsArray : List TokenScore)
    (searchTerm : Option String) : List TokenScore :=
  walkAux (pinnedByPositionOf o store uniqueDocsArray searchTerm)
    (unpinnedOf o store uniqueDocsArray searchTerm)
    ((unpinnedOf o store uniqueDocsArray searchTerm).length +
      (pinnedResultsOf o store uniqueDocsArray searchTerm).length)
    0 0

/-- Embedding of `applyPinningRules` (pinning-manager.ts lines 14-139):
match rules, short-circuit on no match, flatten and stably sort the
promotions by position, resolve them into `promotionsMap`, short-circuit
if it is empty, partition the original results, build and sort the pinned
results, interleave, and append the leftover pins. -/
def applyPinningRules (o : OramaEngine) (store : PinningStore)
    (uniqueDocsArray : List TokenScore) (searchTerm : Option String) : List TokenScore :=
  if (getMatchingRules store searchTerm).isEmpty then uniqueDocsArray
  else if (promotionsMapOf o store searchTerm).isEmpty then uniqueDocsArray
  else
    appendFold (pinnedByPositionOf o store uniqueDocsArray searchTerm)
      (walkOf o store uniqueDocsArray searchTerm)

/-! ### Association-list lemmas -/

theorem lookup_some_mem {β : Type} {l : List (Nat × β)} {k : Nat} {v : β}
    (h : l.lookup k = some v) : (k, v) ∈ l := by
  induction l with
  | nil => simp [List.lookup] at h
  | cons e rest ih =>
    obtain ⟨k', v'⟩ := e
    rw [List.lookup_cons] at h
    by_cases hk : k = k'
    · subst hk
      simp only [beq_self_eq_true] at h
      obtain rfl : v' = v := by injection h
      exact List.mem_cons_self _ _
    · have : (k == k') = false := by simp [hk]
      rw [this] at h
      exact List.mem_cons_of_mem _ (ih h)

theorem lookup_none_not_mem {β : Type} {l : List (Nat × β)} {k : Nat}
    (h : l.lookup k = none) : k ∉ l.map Prod.fst := by
  induction l with
  | nil => simp
  | cons e rest ih =>
    obtain ⟨k', v'⟩ := e
    rw [List.lookup_cons] at h
    by_cases hk : k = k'
    · subst hk; simp at h
    · have : (k == k') = false := by simp [hk]
      rw [this] at h
      simp only [List.map_cons, List.mem_cons]
      rintro (h' | h')
      · exact hk h'
      · exact ih h h'

theorem mem_keys_lookup_isSome {β : Type} {l : List (Nat × β)} {k : Nat}
    (h : k ∈ l.map Prod.fst) : (l.lookup k).isSome := by
  cases hl : l.lookup k with
  | none => exact absurd h (lookup_none_not_mem hl)
  | some v => rfl

theorem lookup_of_mem_nodup {β : Type} {l : List (Nat × β)} {k : Nat} {v : β}
    (hnd : (l.map Prod.fst).Nodup) (h : (k, v) ∈ l) : l.lookup k = some v := by
  induction l with
  | nil => simp at h
  | cons e rest ih =>
    obtain ⟨k', v'⟩ := e
    simp only [List.map_cons, List.nodup_cons] at hnd
    rw [List.lookup_cons]
    by_cases hk : k = k'
    · subst hk
      simp only [beq_self_eq_true]
      show some v' = some v
      rcases List.mem_cons.mp h with heq | hmem
      · injection heq with h1 h2
        rw [h2]
      · exact absurd (List.mem_map.mpr ⟨(k, v), hmem, rfl⟩) hnd.1
    · have hbeq : (k == k') = false := by simp [hk]
      rw [hbeq]
      show List.lookup k rest = some v
      rcases List.mem_cons.mp h with heq | hmem
      · cases heq
        exact absurd rfl hk
      · exact ih hnd.2 hmem

theorem assocSet_of_not_mem {β : Type} {l : List (Nat × β)} {k : Nat} (v : β)
    (h : k ∉ l.map Prod.fst) : assocSet l k v = l ++ [(k, v)] := by
  induction l with
  | nil => rfl
  | cons e rest ih =>
    obtain ⟨k', v'⟩ := e
    simp only [List.map_cons, List.mem_cons] at h
    push_neg at h
    simp only [assocSet, if_neg (Ne.symm h.1), List.cons_append]
    rw [ih h.2]

theorem mem_assocSet {β : Type} {l : List (Nat × β)} {k : Nat} {v : β} {e : Nat × β}
    (h : e ∈ assocSet l k v) : e ∈ l ∨ e = (k, v) := by
  induction l with
  | nil => simpa [assocSet] using h
  | cons hd rest ih =>
    obtain ⟨k', v'⟩ := hd
    simp only [assocSet] at h
    by_cases hk : k' = k
    · rw [if_pos hk] at h
      rcases List.mem_cons.mp h with h | h
      · exact Or.inr h
      · exact Or.inl (List.mem_cons_of_mem _ h)
    · rw [if_neg hk] at h
      rcases List.mem_cons.mp h with h | h
      · exact Or.inl (h ▸ List.mem_cons_self _ _)
      · rcases ih h with h | h
        · exact Or.inl (List.mem_cons_of_mem _ h)
        · exact Or.inr h

/-! ### Invariants of the promotion-resolution loop -/

/-- Invariant maintained by the resolution loop: the pinned-id set lists
exactly the map keys, the taken-position set lists exactly the map values,
and both are duplicate-free. -/
def ResolveInv (s : ResolveState) : Prop :=
  s.pinnedInternalIds = s.promotionsMap.map Prod.fst ∧
  s.positionsTaken = s.promotionsMap.map Prod.snd ∧
  (s.promotionsMap.map Prod.fst).Nodup ∧
  s.positionsTaken.Nodup

theorem resolveStep_inv (o : OramaEngine) (s : ResolveState) (prom : Promotion)
    (h : ResolveInv s) (hb : ∀ v ∈ s.positionsTaken, v ≤ prom.position) :
    ResolveInv (resolveStep o s prom) ∧
    ∀ v ∈ (resolveStep o s prom).positionsTaken, v ∈ s.positionsTaken ∨ v = prom.position := by
  obtain ⟨hids, htaken, hknd, htnd⟩ := h
  unfold resolveStep
  cases hres : getInternalDocumentId o prom.doc_id with
  | none => exact ⟨⟨hids, htaken, hknd, htnd⟩, fun v hv => Or.inl hv⟩
  | some internalId =>
    simp only
    cases hlk : s.promotionsMap.lookup internalId with
    | some existingPosition =>
      have hmem : (internalId, existingPosition) ∈ s.promotionsMap := lookup_some_mem hlk
      have hex : existingPosition ∈ s.positionsTaken := by
        rw [htaken]
        exact List.mem_map.mpr ⟨(internalId, existingPosition), hmem, rfl⟩
      have : ¬ prom.position < existingPosition :=
        Nat.not_lt.mpr (hb _ hex)
      simp only [if_neg this]
      exact ⟨⟨hids, htaken, hknd, htnd⟩, fun v hv => Or.inl hv⟩
    | none =>
      by_cases hc : s.positionsTaken.contains prom.position
      · simp only [if_pos hc]
        exact ⟨⟨hids, htaken, hknd, htnd⟩, fun v hv => Or.inl hv⟩
      · simp only [if_neg hc]
        have hknew : internalId ∉ s.promotionsMap.map Prod.fst := lookup_none_not_mem hlk
        have htnew : prom.position ∉ s.positionsTaken := by
          intro hm
          exact hc (List.elem_eq_true_of_mem hm)
        refine ⟨⟨?_, ?_, ?_, ?_⟩, ?_⟩
        · simp [hids]
        · simp [htaken]
        · simp only [List.map_append]
          rw [List.nodup_append]
          exact ⟨hknd, List.nodup_singleton _, by
            intro a ha hb'
            simp at hb'
            subst hb'
            exact hknew ha⟩
        · simp only
          rw [List.nodup_append]
          exact ⟨htnd, List.nodup_singleton _, by
            intro a ha hb'
            simp at hb'
            subst hb'
            exact htnew ha⟩
        · intro v hv
          simp only [List.mem_append, List.mem_singleton] at hv
          rcases hv with hv | hv
          · exact Or.inl hv
          · exact Or.inr hv

theorem resolve_fold_inv (o : OramaEngine) :
    ∀ (l : List Promotion) (s : ResolveState), ResolveInv s →
    (∀ v ∈ s.positionsTaken, ∀ prom ∈ l, v ≤ prom.position) →
    List.Pairwise promLe l →
    ResolveInv (l.foldl (resolveStep o) s) := by
  intro l
  induction l with
  | nil => intro s hs _ _; exact hs
  | cons hd tl ih =>
    intro s hs hb hsort
    simp only [List.foldl_cons]
    have hstep := resolveStep_inv o s hd hs (fun v hv => hb v hv hd (List.mem_cons_self _ _))
    refine ih _ hstep.1 ?_ (List.Pairwise.of_cons hsort)
    intro v hv prom hprom
    rcases hstep.2 v hv with h | h
    · exact hb v h prom (List.mem_cons_of_mem _ hprom)
    · subst h
      exact (List.pairwise_cons.mp hsort).1 prom hprom

theorem resolveStep_keys (o : OramaEngine) (s : ResolveState) (prom : Promotion) :
    ∀ idp ∈ (resolveStep o s prom).promotionsMap,
      idp ∈ s.promotionsMap ∨ getInternalDocumentId o prom.doc_id = some idp.1 := by
  intro idp hmem
  unfold resolveStep at hmem
  cases hres : getInternalDocumentId o prom.doc_id with
  | none => rw [hres] at hmem; exact Or.inl hmem
  | some internalId =>
    rw [hres] at hmem
    simp only at hmem
    cases hlk : s.promotionsMap.lookup internalId with
    | some existingPosition =>
      rw [hlk] at hmem
      simp only at hmem
      by_cases hlt : prom.position < existingPosition
      · rw [if_pos hlt] at hmem
        simp only at hmem
        rcases mem_assocSet hmem with h | h
        · exact Or.inl h
        · subst h; exact Or.inr rfl
      · rw [if_neg hlt] at hmem
        exact Or.inl hmem
    | none =>
      rw [hlk] at hmem
      simp only at hmem
      by_cases hc : s.positionsTaken.contains prom.position
      · rw [if_pos hc] at hmem
        exact Or.inl hmem
      · rw [if_neg hc] at hmem
        simp only [List.mem_append, List.mem_singleton] at hmem
        rcases hmem with h | h
        · exact Or.inl h
        · subst h; exact Or.inr rfl

theorem resolve_fold_keys (o : OramaEngine) :
    ∀ (l : List Promotion) (s : ResolveState),
    ∀ idp ∈ (l.foldl (resolveStep o) s).promotionsMap,
      idp ∈ s.promotionsMap ∨
        ∃ prom ∈ l, getInternalDocumentId o prom.doc_id = some idp.1 := by
  intro l
  induction l with
  | nil => intro s idp h; exact Or.inl h
  | cons hd tl ih =>
    intro s idp h
    simp only [List.foldl_cons] at h
    rcases ih _ idp h with h' | h'
    · rcases resolveStep_keys o s hd idp h' with h'' | h''
      · exact Or.inl h''
      · exact Or.inr ⟨hd, List.mem_cons_self _ _, h''⟩
    · obtain ⟨prom, hp, hr⟩ := h'
      exact Or.inr ⟨prom, List.mem_cons_of_mem _ hp, hr⟩

/-! ### Sorting facts -/

instance : IsTotal Promotion promLe :=
  ⟨fun a b => Nat.le_total a.position b.position⟩

instance : IsTrans Promotion promLe :=
  ⟨fun _ _ _ => Nat.le_trans⟩

instance (m : List (InternalDocumentID × Nat)) : IsTotal TokenScore (pinLe m) :=
  ⟨fun a b => le_total (pinRank m a) (pinRank m b)⟩

instance (m : List (InternalDocumentID × Nat)) : IsTrans TokenScore (pinLe m) :=
  ⟨fun _ _ _ => le_trans⟩

theorem sortedPromotionsOf_pairwise (store : PinningStore) (q : Option String) :
    List.Pairwise promLe (sortedPromotionsOf store q) :=
  List.sorted_insertionSort promLe _

theorem sortedPromotionsOf_perm (store : PinningStore) (q : Option String) :
    (sortedPromotionsOf store q).Perm (flattenedPromotionsOf store q) :=
  List.perm_insertionSort promLe _

theorem sortedPinnedOf_pairwise (o : OramaEngine) (store : PinningStore)
    (uda : List TokenScore) (q : Option String) :
    List.Pairwise (pinLe (promotionsMapOf o store q)) (sortedPinnedOf o store uda q) :=
  List.sorted_insertionSort _ _

theorem sortedPinnedOf_perm (o : OramaEngine) (store : PinningStore)
    (uda : List TokenScore) (q : Option String) :
    (sortedPinnedOf o store uda q).Perm (pinnedResultsOf o store uda q) :=
  List.perm_insertionSort _ _

/-! ### Facts about the resolved promotion map -/

theorem resolveStateOf_inv (o : OramaEngine) (store : PinningStore) (q : Option String) :
    ResolveInv (resolveStateOf o store q) := by
  refine resolve_fold_inv o _ _ ⟨rfl, rfl, List.nodup_nil, List.nodup_nil⟩ ?_
      (sortedPromotionsOf_pairwise store q)
  intro v hv
  simp at hv

theorem pinnedIdsOf_eq (o : OramaEngine) (store : PinningStore) (q : Option String) :
    pinnedIdsOf o store q = (promotionsMapOf o store q).map Prod.fst :=
  (resolveStateOf_inv o store q).1

theorem promMap_keys_nodup (o : OramaEngine) (store : PinningStore) (q : Option String) :
    ((promotionsMapOf o store q).map Prod.fst).Nodup :=
  (resolveStateOf_inv o store q).2.2.1

theorem promMap_values_nodup (o : OramaEngine) (store : PinningStore) (q : Option String) :
    ((promotionsMapOf o store q).map Prod.snd).Nodup := by
  have h := (resolveStateOf_inv o store q).2.2.2
  rw [(resolveStateOf_inv o store q).2.1] at h
  exact h

theorem promMap_resolved (o : OramaEngine) (store : PinningStore) (q : Option String) :
    ∀ idp ∈ promotionsMapOf o store q,
      ∃ prom ∈ flattenedPromotionsOf store q,
        getInternalDocumentId o prom.doc_id = some idp.1 := by
  intro idp h
  rcases resolve_fold_keys o (sortedPromotionsOf store q) ⟨[], [], []⟩ idp h with h' | h'
  · simp at h'
  · obtain ⟨prom, hmem, hres⟩ := h'
    exact ⟨prom, (sortedPromotionsOf_perm store q).mem_iff.mp hmem, hres⟩

theorem promMap_entry_unique (o : OramaEngine) (store : PinningStore) (q : Option String)
    {k1 k2 p : Nat} (h1 : (k1, p) ∈ promotionsMapOf o store q)
    (h2 : (k2, p) ∈ promotionsMapOf o store q) : k1 = k2 := by
  have := List.inj_on_of_nodup_map (promMap_values_nodup o store q) h1 h2 rfl
  exact congrArg Prod.fst this

/-! ### Facts about the pinned-result construction -/

theorem buildPinned_ids_sublist (o : OramaEngine) (uda : List TokenScore) :
    ∀ m : List (InternalDocumentID × Nat),
      ((buildPinned o uda m).map Prod.fst).Sublist (m.map Prod.fst) := by
  intro m
  induction m with
  | nil => simp [buildPinned]
  | cons idp rest ih =>
    obtain ⟨internalId, position⟩ := idp
    simp only [buildPinned]
    cases uda.find? (fun ts => ts.1 == internalId) with
    | some f => exact List.Sublist.cons₂ _ ih
    | none =>
      by_cases hd : o.hasDoc internalId
      · simp only [if_pos hd]
        exact List.Sublist.cons₂ _ ih
      · simp only [if_neg hd]
        exact List.Sublist.cons _ ih

theorem mem_buildPinned (o : OramaEngine) (uda : List TokenScore) :
    ∀ (m : List (InternalDocumentID × Nat)) (ts : TokenScore), ts ∈ buildPinned o uda m →
      ∃ p, (ts.1, p) ∈ m ∧
        (((uda.find? (fun x => x.1 == ts.1)).isSome ∧ ts.2 = BASE_PIN_SCORE - p) ∨
          (uda.find? (fun x => x.1 == ts.1) = none ∧ o.hasDoc ts.1 = true ∧ ts.2 = 0)) := by
  intro m
  induction m with
  | nil => intro ts h; simp [buildPinned] at h
  | cons idp rest ih =>
    obtain ⟨internalId, position⟩ := idp
    intro ts h
    simp only [buildPinned] at h
    cases hf : uda.find? (fun ts => ts.1 == internalId) with
    | some f =>
      rw [hf] at h
      rcases List.mem_cons.mp h with h | h
      · subst h
        exact ⟨position, List.mem_cons_self _ _, Or.inl ⟨by rw [hf]; rfl, rfl⟩⟩
      · obtain ⟨p, hp, hrest⟩ := ih ts h
        exact ⟨p, List.mem_cons_of_mem _ hp, hrest⟩
    | none =>
      rw [hf] at h
      by_cases hd : o.hasDoc internalId
      · rw [if_pos hd] at h
        rcases List.mem_cons.mp h with h | h
        · subst h
          exact ⟨position, List.mem_cons_self _ _, Or.inr ⟨hf, hd, rfl⟩⟩
        · obtain ⟨p, hp, hrest⟩ := ih ts h
          exact ⟨p, List.mem_cons_of_mem _ hp, hrest⟩
      · rw [if_neg hd] at h
        obtain ⟨p, hp, hrest⟩ := ih ts h
        exact ⟨p, List.mem_cons_of_mem _ hp, hrest⟩

theorem buildPinned_eq_nil (o : OramaEngine) (uda : List TokenScore)
    (m : List (InternalDocumentID × Nat))
    (h : ∀ idp ∈ m, uda.find? (fun x => x.1 == idp.1) = none ∧ o.hasDoc idp.1 = false) :
    buildPinned o uda m = [] := by
  induction m with
  | nil => rfl
  | cons idp rest ih =>
    obtain ⟨internalId, position⟩ := idp
    have hh := h (internalId, position) (List.mem_cons_self _ _)
    simp only [buildPinned]
    rw [hh.1, if_neg (by simp [hh.2])]
    exact ih fun idp hm => h idp (List.mem_cons_of_mem _ hm)

theorem pinnedResultsOf_ids_nodup (o : OramaEngine) (store : PinningStore)
    (uda : List TokenScore) (q : Option String) :
    ((pinnedResultsOf o store uda q).map Prod.fst).Nodup :=
  (buildPinned_ids_sublist o uda _).nodup (promMap_keys_nodup o store q)

theorem pinnedResultsOf_nodup (o : OramaEngine) (store : PinningStore)
    (uda : List TokenScore) (q : Option String) :
    (pinnedResultsOf o store uda q).Nodup :=
  List.Nodup.of_map _ (pinnedResultsOf_ids_nodup o store uda q)

theorem pinnedResultsOf_ids_sub (o : OramaEngine) (store : PinningStore)
    (uda : List TokenScore) (q : Option String) :
    ∀ ts ∈ pinnedResultsOf o store uda q,
      ts.1 ∈ (promotionsMapOf o store q).map Prod.fst := by
  intro ts h
  obtain ⟨p, hp, -⟩ := mem_buildPinned o uda _ ts h
  exact List.mem_map.mpr ⟨(ts.1, p), hp, rfl⟩

/-! ### Facts about the pinned-by-position map -/

theorem buildPB_fold_eq (m : List (InternalDocumentID × Nat)) :
    ∀ (l : List TokenScore) (acc : List (Nat × TokenScore)),
      (∀ pr ∈ l, ∀ p, m.lookup pr.1 = some p → p ∉ acc.map Prod.fst) →
      List.Pairwise (fun a b => ∀ p, m.lookup a.1 = some p → ¬ m.lookup b.1 = some p) l →
      l.foldl
          (fun acc pr =>
            match m.lookup pr.1 with
            | some p => assocSet acc p pr
            | none => acc)
          acc
        = acc ++ l.filterMap (fun pr => (m.lookup pr.1).map (fun p => (p, pr))) := by
  intro l
  induction l with
  | nil => intro acc _ _; simp
  | cons pr rest ih =>
    intro acc hfresh hpw
    simp only [List.foldl_cons, List.filterMap_cons]
    cases hlk : m.lookup pr.1 with
    | none =>
      simp only [Option.map_none']
      exact ih acc (fun pr' h' => hfresh pr' (List.mem_cons_of_mem _ h'))
        (List.Pairwise.of_cons hpw)
    | some p =>
      simp only [Option.map_some']
      have hnm : p ∉ acc.map Prod.fst := hfresh pr (List.mem_cons_self _ _) p hlk
      rw [assocSet_of_not_mem _ hnm]
      rw [ih (acc ++ [(p, pr)]) ?_ (List.Pairwise.of_cons hpw)]
      · rw [List.append_assoc]
        rfl
      · intro pr' h' p' hlk'
        simp only [List.map_append, List.mem_append, List.map_cons, List.map_nil,
          List.mem_singleton]
        rintro (h'' | h'')
        · exact hfresh pr' (List.mem_cons_of_mem _ h') p' hlk' h''
        · exact (List.pairwise_cons.mp hpw).1 pr' h' p' (by rw [h'']; exact hlk) hlk'

theorem sortedPinnedOf_ids_nodup (o : OramaEngine) (store : PinningStore)
    (uda : List TokenScore) (q : Option String) :
    ((sortedPinnedOf o store uda q).map Prod.fst).Nodup :=
  (((sortedPinnedOf_perm o store uda q).map Prod.fst).nodup_iff).mpr
    (pinnedResultsOf_ids_nodup o store uda q)

theorem sortedPinnedOf_lookup_pairwise (o : OramaEngine) (store : PinningStore)
    (uda : List TokenScore) (q : Option String) :
    List.Pairwise
      (fun a b : TokenScore => ∀ p, (promotionsMapOf o store q).lookup a.1 = some p →
        ¬ (promotionsMapOf o store q).lookup b.1 = some p)
      (sortedPinnedOf o store uda q) := by
  have hids : List.Pairwise (fun a b : TokenScore => a.1 ≠ b.1) (sortedPinnedOf o store uda q) :=
    List.pairwise_map.mp (sortedPinnedOf_ids_nodup o store uda q)
  refine hids.imp ?_
  intro a b hne p ha hb
  exact hne (promMap_entry_unique o store q (lookup_some_mem ha) (lookup_some_mem hb))

theorem pinnedByPositionOf_eq (o : OramaEngine) (store : PinningStore)
    (uda : List TokenScore) (q : Option String) :
    pinnedByPositionOf o store uda q
      = (sortedPinnedOf o store uda q).filterMap
          (fun pr => ((promotionsMapOf o store q).lookup pr.1).map (fun p => (p, pr))) := by
  unfold pinnedByPositionOf buildPinnedByPosition
  rw [buildPB_fold_eq _ _ [] (by simp) (sortedPinnedOf_lookup_pairwise o store uda q)]
  simp

theorem sortedPinnedOf_lookup_isSome (o : OramaEngine) (store : PinningStore)
    (uda : List TokenScore) (q : Option String) :
    ∀ pr ∈ sortedPinnedOf o store uda q,
      ((promotionsMapOf o store q).lookup pr.1).isSome := by
  intro pr h
  refine mem_keys_lookup_isSome ?_
  exact pinnedResultsOf_ids_sub o store uda q pr ((sortedPinnedOf_perm o store uda q).mem_iff.mp h)

theorem pb_values_aux (m : List (InternalDocumentID × Nat)) :
    ∀ l : List TokenScore, (∀ pr ∈ l, (m.lookup pr.1).isSome) →
      ((l.filterMap (fun pr => (m.lookup pr.1).map (fun p => (p, pr)))).map Prod.snd) = l := by
  intro l
  induction l with
  | nil => simp
  | cons pr rest ih =>
    intro h
    have hs := h pr (List.mem_cons_self _ _)
    cases hlk : m.lookup pr.1 with
    | none => rw [hlk] at hs; simp at hs
    | some p =>
      simp only [List.filterMap_cons, hlk, Option.map_some', List.map_cons]
      rw [ih fun pr' h' => h pr' (List.mem_cons_of_mem _ h')]

theorem pinnedByPositionOf_values (o : OramaEngine) (store : PinningStore)
    (uda : List TokenScore) (q : Option String) :
    (pinnedByPositionOf o store uda q).map Prod.snd = sortedPinnedOf o store uda q := by
  rw [pinnedByPositionOf_eq]
  exact pb_values_aux _ _ (sortedPinnedOf_lookup_isSome o store uda q)

theorem pinnedByPositionOf_length (o : OramaEngine) (store : PinningStore)
    (uda : List TokenScore) (q : Option String) :
    (pinnedByPositionOf o store uda q).length = (pinnedResultsOf o store uda q).length := by
  have h := congrArg List.length (pinnedByPositionOf_values o store uda q)
  rw [List.length_map] at h
  rw [h]
  exact (sortedPinnedOf_perm o store uda q).length_eq

theorem mem_pinnedByPositionOf (o : OramaEngine) (store : PinningStore)
    (uda : List TokenScore) (q : Option String) {p : Nat} {e : TokenScore}
    (h : (p, e) ∈ pinnedByPositionOf o store uda q) :
    e ∈ sortedPinnedOf o store uda q ∧ (promotionsMapOf o store q).lookup e.1 = some p := by
  rw [pinnedByPositionOf_eq] at h
  obtain ⟨a, ha, hfa⟩ := List.mem_filterMap.mp h
  cases hlk : (promotionsMapOf o store q).lookup a.1 with
  | none => rw [hlk] at hfa; simp at hfa
  | some p' =>
    rw [hlk] at hfa
    simp only [Option.map_some', Option.some.injEq, Prod.mk.injEq] at hfa
    obtain ⟨rfl, rfl⟩ := hfa
    exact ⟨ha, hlk⟩

theorem pinnedByPositionOf_complete (o : OramaEngine) (store : PinningStore)
    (uda : List TokenScore) (q : Option String) {p : Nat} {e : TokenScore}
    (he : e ∈ sortedPinnedOf o store uda q)
    (hlk : (promotionsMapOf o store q).lookup e.1 = some p) :
    (p, e) ∈ pinnedByPositionOf o store uda q := by
  rw [pinnedByPositionOf_eq]
  exact List.mem_filterMap.mpr ⟨e, he, by rw [hlk]; rfl⟩

theorem pinnedByPositionOf_keys_pairwise (o : OramaEngine) (store : PinningStore)
    (uda : List TokenScore) (q : Option String) :
    List.Pairwise (· < ·) ((pinnedByPositionOf o store uda q).map Prod.fst) := by
  rw [pinnedByPositionOf_eq, List.map_filterMap]
  have hle : List.Pairwise (· ≤ ·)
      ((sortedPinnedOf o store uda q).filterMap
        (fun pr => (((promotionsMapOf o store q).lookup pr.1).map (fun p => (p, pr))).map
          Prod.fst)) := by
    rw [List.pairwise_filterMap]
    refine (sortedPinnedOf_pairwise o store uda q).imp ?_
    intro a b hab p hp p' hp'
    rw [Option.mem_def, Option.map_map] at hp hp'
    obtain ⟨pa, hpa, hpa2⟩ := Option.map_eq_some'.mp hp
    obtain ⟨pb, hpb, hpb2⟩ := Option.map_eq_some'.mp hp'
    simp only [Function.comp_apply] at hpa2 hpb2
    subst hpa2; subst hpb2
    have h2 : (pa : WithTop Nat) ≤ (pb : WithTop Nat) := by
      have h3 := hab
      unfold pinLe pinRank at h3
      rw [hpa, hpb] at h3
      exact h3
    exact_mod_cast h2
  have hne : List.Pairwise (· ≠ ·)
      ((sortedPinnedOf o store uda q).filterMap
        (fun pr => (((promotionsMapOf o store q).lookup pr.1).map (fun p => (p, pr))).map
          Prod.fst)) := by
    rw [List.pairwise_filterMap]
    refine (sortedPinnedOf_lookup_pairwise o store uda q).imp ?_
    intro a b hab p hp p' hp'
    rw [Option.mem_def, Option.map_map] at hp hp'
    obtain ⟨pa, hpa, hpa2⟩ := Option.map_eq_some'.mp hp
    obtain ⟨pb, hpb, hpb2⟩ := Option.map_eq_some'.mp hp'
    simp only [Function.comp_apply] at hpa2 hpb2
    subst hpa2; subst hpb2
    rintro rfl
    exact hab _ hpa hpb
  exact (hle.and hne).imp fun h => lt_of_le_of_ne h.1 h.2

theorem pinnedByPositionOf_keys_nodup (o : OramaEngine) (store : PinningStore)
    (uda : List TokenScore) (q : Option String) :
    ((pinnedByPositionOf o store uda q).map Prod.fst).Nodup :=
  (pinnedByPositionOf_keys_pairwise o store uda q).imp fun h => Nat.ne_of_lt h


/-! ### Lemmas about the interleaving walk -/

theorem walkAux_zero (pb : List (Nat × TokenScore)) (unp : List TokenScore) (cur ui : Nat) :
    walkAux pb unp 0 cur ui = [] := rfl

theorem walkAux_succ (pb : List (Nat × TokenScore)) (unp : List TokenScore)
    (fuel cur ui : Nat) :
    walkAux pb unp (fuel + 1) cur ui
      = match List.lookup cur pb with
        | some pr => pr :: walkAux pb unp fuel (cur + 1) ui
        | none =>
          if h : ui < unp.length then
            unp.get ⟨ui, h⟩ :: walkAux pb unp fuel (cur + 1) (ui + 1)
          else [] := rfl

theorem walkAux_nil_pb (unp : List TokenScore) :
    ∀ (fuel cur ui : Nat), walkAux [] unp fuel cur ui = (unp.drop ui).take fuel := by
  intro fuel
  induction fuel with
  | zero => intro cur ui; simp [walkAux_zero]
  | succ fuel ih =>
    intro cur ui
    rw [walkAux_succ]
    simp only [List.lookup_nil]
    by_cases h : ui < unp.length
    · rw [dif_pos h, ih, List.drop_eq_getElem_cons h, List.take_succ_cons, List.get_eq_getElem]
    · rw [dif_neg h]
      rw [List.drop_eq_nil_of_le (Nat.le_of_not_lt h)]
      simp

theorem length_filter_ge_succ {pb : List (Nat × TokenScore)} {cur : Nat} {pr : TokenScore}
    (hnd : (pb.map Prod.fst).Nodup) (hlk : List.lookup cur pb = some pr) :
    (pb.filter (fun a => decide (cur ≤ a.1))).length
      = (pb.filter (fun a => decide (cur + 1 ≤ a.1))).length + 1 := by
  induction pb with
  | nil => simp [List.lookup] at hlk
  | cons e rest ih =>
    obtain ⟨k, v⟩ := e
    simp only [List.map_cons, List.nodup_cons] at hnd
    rw [List.lookup_cons] at hlk
    by_cases hk : cur = k
    · subst hk
      have hcongr : rest.filter (fun a => decide (cur ≤ a.1))
          = rest.filter (fun a => decide (cur + 1 ≤ a.1)) := by
        refine List.filter_congr ?_
        intro a ha
        have : a.1 ≠ cur := by
          rintro heq
          exact hnd.1 (List.mem_map.mpr ⟨a, ha, heq⟩)
        rw [decide_eq_decide]
        omega
      simp only [List.filter_cons]
      rw [if_pos (by simp), if_neg (by simp), hcongr]
      simp
    · have hbeq : (cur == k) = false := by simp [hk]
      rw [hbeq] at hlk
      have hrec := ih hnd.2 hlk
      simp only [List.filter_cons]
      by_cases hck : cur ≤ k
      · rw [if_pos (by simp; omega), if_pos (by simp; omega)]
        simp only [List.length_cons]
        omega
      · rw [if_neg (by simp; omega), if_neg (by simp; omega)]
        exact hrec

theorem filter_ge_of_lookup_none {pb : List (Nat × TokenScore)} {cur : Nat}
    (hlk : List.lookup cur pb = none) :
    pb.filter (fun a => decide (cur ≤ a.1)) = pb.filter (fun a => decide (cur + 1 ≤ a.1)) := by
  refine List.filter_congr ?_
  intro a ha
  have : a.1 ≠ cur := by
    rintro heq
    exact (lookup_none_not_mem hlk) (List.mem_map.mpr ⟨a, ha, heq⟩)
  rw [decide_eq_decide]
  omega

theorem walk_length (pb : List (Nat × TokenScore)) (unp : List TokenScore)
    (hnd : (pb.map Prod.fst).Nodup) :
    ∀ (fuel cur ui : Nat),
      (unp.length - ui) + (pb.filter (fun a => decide (cur ≤ a.1))).length ≤ fuel →
      (walkAux pb unp fuel cur ui).length
        + (pb.filter (fun a => decide (cur + (walkAux pb unp fuel cur ui).length ≤ a.1))).length
      = (unp.length - ui) + (pb.filter (fun a => decide (cur ≤ a.1))).length := by
  intro fuel
  induction fuel with
  | zero =>
    intro cur ui hfuel
    rw [walkAux_zero]
    simp only [List.length_nil, Nat.add_zero, Nat.zero_add]
    omega
  | succ fuel ih =>
    intro cur ui hfuel
    rw [walkAux_succ]
    cases hlk : List.lookup cur pb with
    | some pr =>
      simp only [List.length_cons]
      have hsucc := length_filter_ge_succ hnd hlk
      have hih := ih (cur + 1) ui (by omega)
      have hfix : (pb.filter
            (fun a => decide (cur + ((walkAux pb unp fuel (cur + 1) ui).length + 1) ≤ a.1)))
          = (pb.filter
            (fun a => decide ((cur + 1) + (walkAux pb unp fuel (cur + 1) ui).length ≤ a.1))) := by
        have harith : cur + ((walkAux pb unp fuel (cur + 1) ui).length + 1)
            = (cur + 1) + (walkAux pb unp fuel (cur + 1) ui).length := by omega
        rw [harith]
      have hfixlen := congrArg List.length hfix
      omega
    | none =>
      have heq := filter_ge_of_lookup_none hlk
      have heqlen := congrArg List.length heq
      by_cases h : ui < unp.length
      · rw [dif_pos h]
        simp only [List.length_cons]
        have hih := ih (cur + 1) (ui + 1) (by omega)
        have hfix : (pb.filter
              (fun a => decide (cur + ((walkAux pb unp fuel (cur + 1) (ui + 1)).length + 1) ≤ a.1)))
            = (pb.filter
              (fun a =>
                decide ((cur + 1) + (walkAux pb unp fuel (cur + 1) (ui + 1)).length ≤ a.1))) := by
          have harith : cur + ((walkAux pb unp fuel (cur + 1) (ui + 1)).length + 1)
              = (cur + 1) + (walkAux pb unp fuel (cur + 1) (ui + 1)).length := by omega
          rw [harith]
        have hfixlen := congrArg List.length hfix
        omega
      · rw [dif_neg h]
        simp only [List.length_nil, Nat.add_zero, Nat.zero_add]
        omega

theorem walk_filter (pb : List (Nat × TokenScore)) (unp : List TokenScore)
    (P : TokenScore → Bool)
    (hpb : ∀ pe ∈ pb, P pe.2 = false) (hunp : ∀ u ∈ unp, P u = true)
    (hnd : (pb.map Prod.fst).Nodup) :
    ∀ (fuel cur ui : Nat),
      (unp.length - ui) + (pb.filter (fun a => decide (cur ≤ a.1))).length ≤ fuel →
      (walkAux pb unp fuel cur ui).filter P = unp.drop ui := by
  intro fuel
  induction fuel with
  | zero =>
    intro cur ui hfuel
    have : unp.length ≤ ui := by omega
    rw [List.drop_eq_nil_of_le this, walkAux_zero]
    rfl
  | succ fuel ih =>
    intro cur ui hfuel
    rw [walkAux_succ]
    cases hlk : List.lookup cur pb with
    | some pr =>
      have hP : P pr = false := hpb (cur, pr) (lookup_some_mem hlk)
      have hsucc := length_filter_ge_succ hnd hlk
      rw [List.filter_cons_of_neg (by rw [hP]; exact Bool.false_ne_true)]
      exact ih (cur + 1) ui (by omega)
    | none =>
      have heqlen := congrArg List.length (filter_ge_of_lookup_none hlk)
      by_cases h : ui < unp.length
      · rw [dif_pos h]
        have hu : P (unp.get ⟨ui, h⟩) = true := hunp _ (unp.get_mem ui h)
        rw [List.filter_cons_of_pos hu]
        rw [ih (cur + 1) (ui + 1) (by omega)]
        rw [List.drop_eq_getElem_cons h, List.get_eq_getElem]
      · rw [dif_neg h]
        rw [List.drop_eq_nil_of_le (Nat.le_of_not_lt h)]
        rfl

theorem walk_get (pb : List (Nat × TokenScore)) (unp : List TokenScore) :
    ∀ (fuel cur ui p : Nat) (e : TokenScore), List.lookup p pb = some e → cur ≤ p →
      p - cur < (walkAux pb unp fuel cur ui).length →
      (walkAux pb unp fuel cur ui).get? (p - cur) = some e := by
  intro fuel
  induction fuel with
  | zero =>
    intro cur ui p e _ _ hlen
    rw [walkAux_zero] at hlen
    simp at hlen
  | succ fuel ih =>
    intro cur ui p e hp hcp hlen
    rw [walkAux_succ] at hlen ⊢
    cases hlk : List.lookup cur pb with
    | some pr =>
      rw [hlk] at hlen
      by_cases hpc : p = cur
      · subst hpc
        rw [hp] at hlk
        have h2 : e = pr := by injection hlk
        subst h2
        simp [Nat.sub_self]
      · have h1 : p - cur = (p - (cur + 1)) + 1 := by omega
        rw [h1]
        simp only [List.length_cons] at hlen
        simp only [List.get?_cons_succ]
        exact ih (cur + 1) ui p e hp (by omega) (by omega)
    | none =>
      rw [hlk] at hlen
      have hpc : p ≠ cur := by
        rintro rfl
        rw [hp] at hlk
        exact Option.noConfusion hlk
      by_cases h : ui < unp.length
      · rw [dif_pos h] at hlen ⊢
        have h1 : p - cur = (p - (cur + 1)) + 1 := by omega
        rw [h1]
        simp only [List.length_cons] at hlen
        simp only [List.get?_cons_succ]
        exact ih (cur + 1) (ui + 1) p e hp (by omega) (by omega)
      · rw [dif_neg h] at hlen
        simp at hlen

theorem walk_count (pb : List (Nat × TokenScore)) (unp : List TokenScore)
    (e0 : TokenScore) (p0 : Nat)
    (hlk0 : List.lookup p0 pb = some e0)
    (huniq : ∀ pe ∈ pb, pe.2 = e0 → pe.1 = p0)
    (hnu : e0 ∉ unp) :
    ∀ (fuel cur ui : Nat),
      (walkAux pb unp fuel cur ui).count e0
        = if cur ≤ p0 ∧ p0 < cur + (walkAux pb unp fuel cur ui).length then 1 else 0 := by
  intro fuel
  induction fuel with
  | zero =>
    intro cur ui
    rw [walkAux_zero]
    rw [if_neg (by simp)]
    rfl
  | succ fuel ih =>
    intro cur ui
    rw [walkAux_succ]
    cases hlk : List.lookup cur pb with
    | some pr =>
      by_cases hpr : pr = e0
      · subst hpr
        have hc : cur = p0 := huniq (cur, pr) (lookup_some_mem hlk) rfl
        subst hc
        rw [List.count_cons, ih (cur + 1) ui]
        have c1 : ¬(cur + 1 ≤ cur ∧
            cur < cur + 1 + (walkAux pb unp fuel (cur + 1) ui).length) := by omega
        have c2 : (pr == pr) = true := by simp
        have c3 : cur ≤ cur ∧ cur < cur + (pr :: walkAux pb unp fuel (cur + 1) ui).length := by
          simp only [List.length_cons]
          omega
        simp only [if_neg c1, if_pos c2, if_pos c3]
      · have hpc : p0 ≠ cur := by
          rintro rfl
          rw [hlk0] at hlk
          have h2 : e0 = pr := by injection hlk
          exact hpr h2.symm
        have c2 : (pr == e0) = false := by
          rw [beq_eq_false_iff_ne]
          exact hpr
        rw [List.count_cons, ih (cur + 1) ui]
        simp only [c2, if_false, Bool.false_eq_true, List.length_cons, Nat.add_zero]
        by_cases hcond : cur + 1 ≤ p0 ∧ p0 < cur + 1 + (walkAux pb unp fuel (cur + 1) ui).length
        · have c3 : cur ≤ p0 ∧ p0 < cur + ((walkAux pb unp fuel (cur + 1) ui).length + 1) := by
            omega
          simp only [if_pos hcond, if_pos c3]
        · have c3 : ¬(cur ≤ p0 ∧
              p0 < cur + ((walkAux pb unp fuel (cur + 1) ui).length + 1)) := by omega
          simp only [if_neg hcond, if_neg c3]
    | none =>
      have hpc : p0 ≠ cur := by
        rintro rfl
        rw [hlk0] at hlk
        exact Option.noConfusion hlk
      by_cases h : ui < unp.length
      · rw [dif_pos h]
        have hne : (unp.get ⟨ui, h⟩ == e0) = false := by
          rw [beq_eq_false_iff_ne]
          intro heq
          exact hnu (heq ▸ unp.get_mem ui h)
        rw [List.count_cons, ih (cur + 1) (ui + 1)]
        simp only [hne, if_false, Bool.false_eq_true, List.length_cons, Nat.add_zero]
        by_cases hcond : cur + 1 ≤ p0 ∧
            p0 < cur + 1 + (walkAux pb unp fuel (cur + 1) (ui + 1)).length
        · have c3 : cur ≤ p0 ∧
              p0 < cur + ((walkAux pb unp fuel (cur + 1) (ui + 1)).length + 1) := by omega
          simp only [if_pos hcond, if_pos c3]
        · have c3 : ¬(cur ≤ p0 ∧
              p0 < cur + ((walkAux pb unp fuel (cur + 1) (ui + 1)).length + 1)) := by omega
          simp only [if_neg hcond, if_neg c3]
      · rw [dif_neg h]
        rw [if_neg (by simp)]
        rfl


theorem walk_mem (pb : List (Nat × TokenScore)) (unp : List TokenScore) :
    ∀ (fuel cur ui : Nat), ∀ e ∈ walkAux pb unp fuel cur ui,
      (∃ c, List.lookup c pb = some e) ∨ e ∈ unp := by
  intro fuel
  induction fuel with
  | zero => intro cur ui e he; rw [walkAux_zero] at he; simp at he
  | succ fuel ih =>
    intro cur ui e he
    rw [walkAux_succ] at he
    revert he
    cases hlk : List.lookup cur pb with
    | some pr =>
      intro he
      rcases List.mem_cons.mp he with he | he
      · exact Or.inl ⟨cur, he ▸ hlk⟩
      · exact ih (cur + 1) ui e he
    | none =>
      by_cases h : ui < unp.length
      · rw [dif_pos h]
        intro he
        rcases List.mem_cons.mp he with he | he
        · exact Or.inr (he ▸ unp.get_mem ui h)
        · exact ih (cur + 1) (ui + 1) e he
      · rw [dif_neg h]
        intro he
        simp at he

/-! ### Lemmas about the trailing append loop -/

theorem appendFold_spec :
    ∀ (l : List (Nat × TokenScore)) (built : List TokenScore),
      List.Pairwise (· < ·) (l.map Prod.fst) →
      appendFold l built
        = built ++ (l.filter (fun a => decide (built.length ≤ a.1))).map Prod.snd := by
  intro l
  induction l with
  | nil => intro built _; simp [appendFold]
  | cons e rest ih =>
    intro built hpw
    obtain ⟨p, pr⟩ := e
    simp only [List.map_cons, List.pairwise_cons] at hpw
    show appendFold rest (if built.length ≤ p then built ++ [pr] else built)
      = built ++ (((p, pr) :: rest).filter (fun a => decide (built.length ≤ a.1))).map Prod.snd
    by_cases hp : built.length ≤ p
    · rw [if_pos hp]
      have hall : ∀ a ∈ rest, p < a.1 := by
        intro a ha
        exact hpw.1 a.1 (List.mem_map.mpr ⟨a, ha, rfl⟩)
      have hr1 : rest.filter (fun a => decide ((built ++ [pr]).length ≤ a.1)) = rest := by
        refine List.filter_eq_self.mpr ?_
        intro a ha
        simp only [List.length_append, List.length_cons, List.length_nil, decide_eq_true_eq]
        have := hall a ha
        omega
      have hr2 : rest.filter (fun a => decide (built.length ≤ a.1)) = rest := by
        refine List.filter_eq_self.mpr ?_
        intro a ha
        simp only [decide_eq_true_eq]
        have := hall a ha
        omega
      rw [ih (built ++ [pr]) (List.pairwise_map.mpr (List.pairwise_map.mp hpw.2)), hr1]
      rw [List.filter_cons_of_pos (by simpa using hp), List.map_cons, hr2]
      simp
    · rw [if_neg hp]
      rw [ih built (List.pairwise_map.mpr (List.pairwise_map.mp hpw.2))]
      rw [List.filter_cons_of_neg (by simpa using hp)]

/-! ### Structural decomposition of the splicer -/

theorem promMap_of_matching_nil (o : OramaEngine) (store : PinningStore) (q : Option String)
    (h : getMatchingRules store q = []) : promotionsMapOf o store q = [] := by
  unfold promotionsMapOf resolveStateOf sortedPromotionsOf flattenedPromotionsOf
  rw [h]
  rfl

theorem degenerate_split (o : OramaEngine) (store : PinningStore) (uda : List TokenScore)
    (q : Option String) (hm : promotionsMapOf o store q = []) :
    walkOf o store uda q = uda ∧ pinnedByPositionOf o store uda q = [] := by
  have hids : pinnedIdsOf o store q = [] := by
    rw [pinnedIdsOf_eq, hm]
    rfl
  have hunp : unpinnedOf o store uda q = uda := by
    unfold unpinnedOf
    rw [hids]
    refine List.filter_eq_self.mpr ?_
    intro a _
    rfl
  have hpr : pinnedResultsOf o store uda q = [] := by
    unfold pinnedResultsOf
    rw [hm]
    rfl
  have hsp : sortedPinnedOf o store uda q = [] := by
    unfold sortedPinnedOf
    rw [hpr]
    rfl
  have hpb : pinnedByPositionOf o store uda q = [] := by
    unfold pinnedByPositionOf buildPinnedByPosition
    rw [hsp]
    rfl
  refine ⟨?_, hpb⟩
  unfold walkOf
  rw [hpb, hunp, hpr, walkAux_nil_pb]
  simp

theorem applyPinningRules_split (o : OramaEngine) (store : PinningStore)
    (uda : List TokenScore) (q : Option String) :
    applyPinningRules o store uda q
      = walkOf o store uda q
        ++ ((pinnedByPositionOf o store uda q).filter
            (fun a => decide ((walkOf o store uda q).length ≤ a.1))).map Prod.snd := by
  unfold applyPinningRules
  by_cases h1 : (getMatchingRules store q).isEmpty
  · rw [if_pos h1]
    obtain ⟨hw, hpb⟩ := degenerate_split o store uda q
      (promMap_of_matching_nil o store q (List.isEmpty_iff.mp h1))
    rw [hw, hpb]
    simp
  · rw [if_neg h1]
    by_cases h2 : (promotionsMapOf o store q).isEmpty
    · rw [if_pos h2]
      obtain ⟨hw, hpb⟩ := degenerate_split o store uda q (List.isEmpty_iff.mp h2)
      rw [hw, hpb]
      simp
    · rw [if_neg h2]
      exact appendFold_spec _ _ (pinnedByPositionOf_keys_pairwise o store uda q)

theorem pb_filter_zero_length (o : OramaEngine) (store : PinningStore)
    (uda : List TokenScore) (q : Option String) :
    ((pinnedByPositionOf o store uda q).filter (fun a => decide (0 ≤ a.1))).length
      = (pinnedResultsOf o store uda q).length := by
  have h : (pinnedByPositionOf o store uda q).filter (fun a => decide (0 ≤ a.1))
      = pinnedByPositionOf o store uda q :=
    List.filter_eq_self.mpr (by intro a _; simp)
  rw [h]
  exact pinnedByPositionOf_length o store uda q

/-! ### Support lemmas connecting the output to the pipeline stages -/

theorem contains_eq_true_of_mem {l : List Nat} {a : Nat} (h : a ∈ l) :
    l.contains a = true :=
  List.elem_eq_true_of_mem h

theorem out_mem_cases (o : OramaEngine) (store : PinningStore) (uda : List TokenScore)
    (q : Option String) (ts : TokenScore) (hts : ts ∈ applyPinningRules o store uda q) :
    ts ∈ unpinnedOf o store uda q ∨ ts ∈ pinnedResultsOf o store uda q := by
  rw [applyPinningRules_split] at hts
  rcases List.mem_append.mp hts with h | h
  · unfold walkOf at h
    rcases walk_mem _ _ _ _ _ ts h with ⟨c, hc⟩ | h2
    · have hmem := lookup_some_mem hc
      have h3 := mem_pinnedByPositionOf o store uda q hmem
      exact Or.inr ((sortedPinnedOf_perm o store uda q).mem_iff.mp h3.1)
    · exact Or.inl h2
  · obtain ⟨pe, hpe, hsnd⟩ := List.mem_map.mp h
    have hpe2 : pe ∈ pinnedByPositionOf o store uda q := (List.filter_sublist _).subset hpe
    obtain ⟨p0, e0⟩ := pe
    obtain rfl : e0 = ts := hsnd
    have h3 := mem_pinnedByPositionOf o store uda q hpe2
    exact Or.inr ((sortedPinnedOf_perm o store uda q).mem_iff.mp h3.1)

theorem unpinned_not_pinned (o : OramaEngine) (store : PinningStore) (uda : List TokenScore)
    (q : Option String) (ts : TokenScore) (h : ts ∈ unpinnedOf o store uda q) :
    ts.1 ∉ (promotionsMapOf o store q).map Prod.fst := by
  have h2 := (List.mem_filter.mp h).2
  intro hmem
  rw [← pinnedIdsOf_eq] at hmem
  rw [contains_eq_true_of_mem hmem] at h2
  simp at h2

theorem out_pinned_mem (o : OramaEngine) (store : PinningStore) (uda : List TokenScore)
    (q : Option String) (ts : TokenScore) (hts : ts ∈ applyPinningRules o store uda q)
    (hkey : ts.1 ∈ (promotionsMapOf o store q).map Prod.fst) :
    ts ∈ pinnedResultsOf o store uda q := by
  rcases out_mem_cases o store uda q ts hts with h | h
  · exact absurd hkey (unpinned_not_pinned o store uda q ts h)
  · exact h

theorem count_appended (e : TokenScore) (p0 L : Nat) :
    ∀ pb : List (Nat × TokenScore), (p0, e) ∈ pb →
      (∀ pe ∈ pb, pe.2 = e → pe.1 = p0) → ((pb.map Prod.fst).Nodup) →
      ((pb.filter (fun a => decide (L ≤ a.1))).map Prod.snd).count e
        = if L ≤ p0 then 1 else 0 := by
  intro pb
  induction pb with
  | nil => intro hmem _ _; simp at hmem
  | cons hd rest ih =>
    intro hmem huniq hnd
    obtain ⟨k, v⟩ := hd
    simp only [List.map_cons, List.nodup_cons] at hnd
    by_cases hv : v = e
    · subst hv
      have hk : k = p0 := huniq (k, v) (List.mem_cons_self _ _) rfl
      subst hk
      have hrest0 : ((rest.filter (fun a => decide (L ≤ a.1))).map Prod.snd).count v = 0 := by
        rw [List.count_eq_zero]
        intro hmm
        obtain ⟨pe, hpe, hsnd⟩ := List.mem_map.mp hmm
        have hpe2 : pe ∈ rest := (List.filter_sublist _).subset hpe
        have h4 := huniq pe (List.mem_cons_of_mem _ hpe2) hsnd
        exact hnd.1 (h4 ▸ List.mem_map.mpr ⟨pe, hpe2, rfl⟩)
      by_cases hL : L ≤ k
      · rw [List.filter_cons_of_pos (by simpa using hL), List.map_cons, List.count_cons,
          hrest0, if_pos hL]
        simp
      · rw [List.filter_cons_of_neg (by simpa using hL), hrest0, if_neg hL]
    · have hmem2 : (p0, e) ∈ rest := by
        rcases List.mem_cons.mp hmem with h | h
        · injection h with h1 h2
          exact absurd h2.symm hv
        · exact h
      have ih2 := ih hmem2 (fun pe hpe => huniq pe (List.mem_cons_of_mem _ hpe)) hnd.2
      by_cases hL : L ≤ k
      · rw [List.filter_cons_of_pos (by simpa using hL), List.map_cons, List.count_cons, ih2]
        simp [hv]
      · rw [List.filter_cons_of_neg (by simpa using hL)]
        exact ih2

theorem walkOf_def (o : OramaEngine) (store : PinningStore) (uda : List TokenScore)
    (q : Option String) :
    walkOf o store uda q
      = walkAux (pinnedByPositionOf o store uda q) (unpinnedOf o store uda q)
          ((unpinnedOf o store uda q).length + (pinnedResultsOf o store uda q).length) 0 0 :=
  rfl

theorem pin_count_one (o : OramaEngine) (store : PinningStore) (uda : List TokenScore)
    (q : Option String) (e : TokenScore) (he : e ∈ pinnedResultsOf o store uda q) :
    (applyPinningRules o store uda q).count e = 1 := by
  have hesp : e ∈ sortedPinnedOf o store uda q :=
    (sortedPinnedOf_perm o store uda q).mem_iff.mpr he
  have hkey : e.1 ∈ (promotionsMapOf o store q).map Prod.fst :=
    pinnedResultsOf_ids_sub o store uda q e he
  obtain ⟨p0, hp0⟩ : ∃ p0, List.lookup e.1 (promotionsMapOf o store q) = some p0 := by
    cases hlk : List.lookup e.1 (promotionsMapOf o store q) with
    | none => exact absurd (mem_keys_lookup_isSome hkey) (by rw [hlk]; simp)
    | some p => exact ⟨p, rfl⟩
  have hpbmem : (p0, e) ∈ pinnedByPositionOf o store uda q :=
    pinnedByPositionOf_complete o store uda q hesp hp0
  have hpblk : List.lookup p0 (pinnedByPositionOf o store uda q) = some e :=
    lookup_of_mem_nodup (pinnedByPositionOf_keys_nodup o store uda q) hpbmem
  have huniq : ∀ pe ∈ pinnedByPositionOf o store uda q, pe.2 = e → pe.1 = p0 := by
    intro pe hpe heq
    obtain ⟨p1, e1⟩ := pe
    obtain rfl : e1 = e := heq
    have h2 := (mem_pinnedByPositionOf o store uda q hpe).2
    rw [hp0] at h2
    injection h2 with h3
    exact h3.symm
  have hnu : e ∉ unpinnedOf o store uda q := by
    intro hu
    exact (unpinned_not_pinned o store uda q e hu) hkey
  rw [applyPinningRules_split, List.count_append]
  have hwc := walk_count (pinnedByPositionOf o store uda q) (unpinnedOf o store uda q)
    e p0 hpblk huniq hnu
    ((unpinnedOf o store uda q).length + (pinnedResultsOf o store uda q).length) 0 0
  rw [← walkOf_def] at hwc
  have hac := count_appended e p0 (walkOf o store uda q).length
    (pinnedByPositionOf o store uda q) hpbmem huniq
    (pinnedByPositionOf_keys_nodup o store uda q)
  rw [hwc, hac]
  by_cases hcase : p0 < (walkOf o store uda q).length
  · rw [if_pos ⟨Nat.zero_le _, by omega⟩, if_neg (by omega)]
  · rw [if_neg (by omega), if_pos (by omega)]

/-! ### Counting and filtering helpers for the output list -/

theorem contains_eq_false_of_not_mem {l : List Nat} {a : Nat} (h : a ∉ l) :
    l.contains a = false := by
  cases hc : l.contains a
  · rfl
  · exact absurd (List.mem_of_elem_eq_true hc) h

theorem count_fst_filter (P : TokenScore → Bool) (id : Nat) :
    ∀ l : List TokenScore, (∀ ts ∈ l, ts.1 = id → P ts = true) →
      ((l.filter P).map Prod.fst).count id = (l.map Prod.fst).count id := by
  intro l
  induction l with
  | nil => intro _; rfl
  | cons hd rest ih =>
    intro h
    have ihr := ih (fun ts hts => h ts (List.mem_cons_of_mem _ hts))
    by_cases h1 : hd.1 = id
    · have hP := h hd (List.mem_cons_self _ _) h1
      rw [List.filter_cons_of_pos hP]
      simp only [List.map_cons, List.count_cons]
      rw [ihr]
    · by_cases hP : P hd = true
      · rw [List.filter_cons_of_pos hP]
        simp only [List.map_cons, List.count_cons]
        rw [ihr]
      · rw [List.filter_cons_of_neg hP]
        simp only [List.map_cons, List.count_cons]
        rw [ihr, if_neg (by simp [h1])]
        omega

theorem count_fst_eq_count_elem (id : Nat) (e0 : TokenScore) (he : e0.1 = id) :
    ∀ l : List TokenScore, (∀ ts ∈ l, ts.1 = id → ts = e0) →
      (l.map Prod.fst).count id = l.count e0 := by
  intro l
  induction l with
  | nil => intro _; rfl
  | cons hd rest ih =>
    intro h
    have ihr := ih (fun ts hts => h ts (List.mem_cons_of_mem _ hts))
    simp only [List.map_cons, List.count_cons]
    rw [ihr]
    by_cases h1 : hd.1 = id
    · have h2 : hd = e0 := h hd (List.mem_cons_self _ _) h1
      rw [h2, if_pos (by simp [he]), if_pos (by simp)]
    · rw [if_neg (by simp [h1]), if_neg (by
        simp only [beq_iff_eq]
        intro heq
        exact h1 (by rw [heq]; exact he))]

theorem out_filter_unpinned (o : OramaEngine) (store : PinningStore) (uda : List TokenScore)
    (q : Option String) :
    (applyPinningRules o store uda q).filter
        (fun ts => !(pinnedIdsOf o store q).contains ts.1)
      = unpinnedOf o store uda q := by
  rw [applyPinningRules_split, List.filter_append]
  have hpbP : ∀ pe ∈ pinnedByPositionOf o store uda q,
      (!(pinnedIdsOf o store q).contains pe.2.1) = false := by
    intro pe hpe
    obtain ⟨p1, e1⟩ := pe
    have h2 := (mem_pinnedByPositionOf o store uda q hpe).2
    have hkey : e1.1 ∈ (promotionsMapOf o store q).map Prod.fst :=
      List.mem_map.mpr ⟨(e1.1, p1), lookup_some_mem h2, rfl⟩
    rw [← pinnedIdsOf_eq] at hkey
    rw [contains_eq_true_of_mem hkey]
    rfl
  have hwalk : (walkOf o store uda q).filter (fun ts => !(pinnedIdsOf o store q).contains ts.1)
      = unpinnedOf o store uda q := by
    rw [walkOf_def]
    have hwf := walk_filter (pinnedByPositionOf o store uda q) (unpinnedOf o store uda q)
      (fun ts => !(pinnedIdsOf o store q).contains ts.1)
      hpbP
      (fun u hu => (List.mem_filter.mp hu).2)
      (pinnedByPositionOf_keys_nodup o store uda q)
      ((unpinnedOf o store uda q).length + (pinnedResultsOf o store uda q).length) 0 0
      (by rw [Nat.sub_zero, pb_filter_zero_length])
    rw [List.drop_zero] at hwf
    exact hwf
  have happ : (((pinnedByPositionOf o store uda q).filter
        (fun a => decide ((walkOf o store uda q).length ≤ a.1))).map Prod.snd).filter
        (fun ts => !(pinnedIdsOf o store q).contains ts.1) = [] := by
    refine List.filter_eq_nil_iff.mpr ?_
    intro a ha
    obtain ⟨pe, hpe, hsnd⟩ := List.mem_map.mp ha
    have hpe2 : pe ∈ pinnedByPositionOf o store uda q := (List.filter_sublist _).subset hpe
    have h3 := hpbP pe hpe2
    rw [hsnd] at h3
    rw [h3]
    simp
  rw [hwalk, happ, List.append_nil]

theorem out_length (o : OramaEngine) (store : PinningStore) (uda : List TokenScore)
    (q : Option String) :
    (applyPinningRules o store uda q).length
      = (unpinnedOf o store uda q).length + (pinnedResultsOf o store uda q).length := by
  rw [applyPinningRules_split, List.length_append, List.length_map]
  have hwl := walk_length (pinnedByPositionOf o store uda q) (unpinnedOf o store uda q)
    (pinnedByPositionOf_keys_nodup o store uda q)
    ((unpinnedOf o store uda q).length + (pinnedResultsOf o store uda q).length) 0 0
    (by rw [Nat.sub_zero, pb_filter_zero_length])
  rw [← walkOf_def] at hwl
  simp only [Nat.zero_add, Nat.sub_zero] at hwl
  rw [pb_filter_zero_length] at hwl
  exact hwl

/-! ### Claim theorems -/

/-- Claim C8 (confirmed): if no rule matches the query (the matched rule
list is empty), `applyPinningRules` returns the organic input list
unchanged, acting as the identity on the organic results. -/
theorem C8_no_match_identity (o : OramaEngine) (store : PinningStore)
    (uda : List TokenScore) (q : Option String) (h : getMatchingRules store q = []) :
    applyPinningRules o store uda q = uda := by
  unfold applyPinningRules
  rw [h]
  rfl

/-- Witness for C8 at a concrete input: an empty store matches nothing. -/
theorem C8_witness :
    applyPinningRules ⟨fun _ => none, fun _ => true⟩ ⟨[]⟩ [(1, 9)] none = [(1, 9)] :=
  C8_no_match_identity ⟨fun _ => none, fun _ => true⟩ ⟨[]⟩ [(1, 9)] none rfl

/-- Claim C7 (confirmed): a promotion whose external id does not resolve,
or whose resolved document is neither in the organic list nor in the
document store, is silently dropped; if every matching promotion is stale,
the output equals the organic input list.  The embedding is a total
function, so no error can be raised. -/
theorem C7_stale_promotions_dropped (o : OramaEngine) (store : PinningStore)
    (uda : List TokenScore) (q : Option String)
    (hstale : ∀ prom ∈ flattenedPromotionsOf store q, ∀ id,
      getInternalDocumentId o prom.doc_id = some id →
        id ∉ uda.map Prod.fst ∧ o.hasDoc id = false) :
    applyPinningRules o store uda q = uda := by
  have hkeys : ∀ idp ∈ promotionsMapOf o store q,
      idp.1 ∉ uda.map Prod.fst ∧ o.hasDoc idp.1 = false := by
    intro idp h
    obtain ⟨prom, hp, hres⟩ := promMap_resolved o store q idp h
    exact hstale prom hp idp.1 hres
  have hunp : unpinnedOf o store uda q = uda := by
    unfold unpinnedOf
    refine List.filter_eq_self.mpr ?_
    intro a ha
    have hnot : a.1 ∉ pinnedIdsOf o store q := by
      rw [pinnedIdsOf_eq]
      intro hmem
      obtain ⟨idp, hidp, hfst⟩ := List.mem_map.mp hmem
      have h2 : a.1 ∈ uda.map Prod.fst := List.mem_map.mpr ⟨a, ha, rfl⟩
      rw [← hfst] at h2
      exact (hkeys idp hidp).1 h2
    rw [contains_eq_false_of_not_mem hnot]
    rfl
  have hpr : pinnedResultsOf o store uda q = [] := by
    unfold pinnedResultsOf
    refine buildPinned_eq_nil o uda _ ?_
    intro idp hidp
    refine ⟨?_, (hkeys idp hidp).2⟩
    refine List.find?_eq_none.mpr ?_
    intro x hx
    simp only [beq_iff_eq]
    intro heq
    exact (hkeys idp hidp).1 (List.mem_map.mpr ⟨x, hx, heq⟩)
  have hsp : sortedPinnedOf o store uda q = [] := by
    unfold sortedPinnedOf
    rw [hpr]
    rfl
  have hpb : pinnedByPositionOf o store uda q = [] := by
    unfold pinnedByPositionOf buildPinnedByPosition
    rw [hsp]
    rfl
  rw [applyPinningRules_split, walkOf_def, hpb, hunp, hpr, walkAux_nil_pb]
  simp

/-- Witness for C7 at a concrete input: the only matching rule promotes an
external id that does not resolve, and the output equals the organic list. -/
theorem C7_witness :
    applyPinningRules ⟨fun _ => none, fun _ => true⟩
      ⟨[⟨"r1", [⟨.contains, "q"⟩], ⟨[⟨"ghost", 0⟩]⟩⟩]⟩ [(1, 9)] (some "q") = [(1, 9)] :=
  C7_stale_promotions_dropped ⟨fun _ => none, fun _ => true⟩
    ⟨[⟨"r1", [⟨.contains, "q"⟩], ⟨[⟨"ghost", 0⟩]⟩⟩]⟩ [(1, 9)] (some "q")
    (by
      intro prom hmem id hres
      exact absurd hres (by simp [getInternalDocumentId]))

/-- Claim C4 (confirmed): the documents of the organic list that are not
pinned appear in the output in exactly the same relative order as in the
organic input: restricting the output to un-pinned internal ids yields
exactly the same list as restricting the organic input. -/
theorem C4_unpinned_order (o : OramaEngine) (store : PinningStore)
    (uda : List TokenScore) (q : Option String) :
    (applyPinningRules o store uda q).filter
        (fun ts => !(pinnedIdsOf o store q).contains ts.1)
      = uda.filter (fun ts => !(pinnedIdsOf o store q).contains ts.1) :=
  out_filter_unpinned o store uda q

/-- Claim C9 (confirmed): the output is the interleaving walk followed by
exactly those pins whose claimed position is at least the length of the
list built so far, appended in ascending order of claimed position;
concretely, with organic documents 1, 2, 3 and a single valid pin of
document 4 at position 10, the output is the three organic documents
followed by the pin. -/
theorem C9_append_remaining (o : OramaEngine) (store : PinningStore)
    (uda : List TokenScore) (q : Option String) :
    (applyPinningRules o store uda q
        = walkOf o store uda q
          ++ ((pinnedByPositionOf o store uda q).filter
              (fun a => decide ((walkOf o store uda q).length ≤ a.1))).map Prod.snd)
    ∧ List.Pairwise (· < ·)
        (((pinnedByPositionOf o store uda q).filter
            (fun a => decide ((walkOf o store uda q).length ≤ a.1))).map Prod.fst)
    ∧ applyPinningRules
        ⟨fun s => if s = "x" then some 4 else none, fun _ => true⟩
        ⟨[⟨"r1", [⟨.contains, "q"⟩], ⟨[⟨"x", 10⟩]⟩⟩]⟩
        [(1, 9), (2, 8), (3, 7)] (some "q")
      = [(1, 9), (2, 8), (3, 7), (4, 0)] :=
  ⟨applyPinningRules_split o store uda q,
   List.Pairwise.sublist ((List.filter_sublist _).map Prod.fst)
     (pinnedByPositionOf_keys_pairwise o store uda q),
   rfl⟩

/-- Claim C10 (confirmed): no surviving pin is lost: the output length is
the number of unpinned organic entries plus the number of surviving pins,
and every surviving pinned result appears exactly once in the output. -/
theorem C10_no_pin_lost (o : OramaEngine) (store : PinningStore)
    (uda : List TokenScore) (q : Option String) :
    (applyPinningRules o store uda q).length
        = (unpinnedOf o store uda q).length + (pinnedResultsOf o store uda q).length
    ∧ ∀ e ∈ pinnedResultsOf o store uda q, (applyPinningRules o store uda q).count e = 1 :=
  ⟨out_length o store uda q, fun e he => pin_count_one o store uda q e he⟩

/-- Witness for C10 at a concrete input: the sparse pin (4, 0) of the E6
scenario survives and appears exactly once in the output. -/
theorem C10_witness :
    (applyPinningRules ⟨fun s => if s = "x" then some 4 else none, fun _ => true⟩
        ⟨[⟨"r1", [⟨.contains, "q"⟩], ⟨[⟨"x", 10⟩]⟩⟩]⟩
        [(1, 9), (2, 8), (3, 7)] (some "q")).count (4, 0) = 1 :=
  (C10_no_pin_lost ⟨fun s => if s = "x" then some 4 else none, fun _ => true⟩
      ⟨[⟨"r1", [⟨.contains, "q"⟩], ⟨[⟨"x", 10⟩]⟩⟩]⟩
      [(1, 9), (2, 8), (3, 7)] (some "q")).2 (4, 0) (by decide)

/-- Claim C6 (confirmed): an output entry whose internal id carries a
claimed position `p` in the promotion map is scored `BASE_PIN_SCORE - p`
when its document appeared in the organic list, and `0` when it did not
(in which case it passed the document-store existence check). -/
theorem C6_pin_scores (o : OramaEngine) (store : PinningStore) (uda : List TokenScore)
    (q : Option String) (ts : TokenScore) (p : Nat)
    (hts : ts ∈ applyPinningRules o store uda q)
    (hlk : List.lookup ts.1 (promotionsMapOf o store q) = some p) :
    (ts.1 ∈ uda.map Prod.fst → ts.2 = BASE_PIN_SCORE - p)
    ∧ (ts.1 ∉ uda.map Prod.fst → ts.2 = 0) := by
  have hkey : ts.1 ∈ (promotionsMapOf o store q).map Prod.fst :=
    List.mem_map.mpr ⟨(ts.1, p), lookup_some_mem hlk, rfl⟩
  have hpin : ts ∈ pinnedResultsOf o store uda q := out_pinned_mem o store uda q ts hts hkey
  obtain ⟨p2, hp2mem, hcases⟩ := mem_buildPinned o uda _ ts hpin
  have hp2 : p2 = p := by
    have h3 := lookup_of_mem_nodup (promMap_keys_nodup o store q) hp2mem
    rw [hlk] at h3
    injection h3 with h4
    exact h4.symm
  subst hp2
  constructor
  · intro hin
    rcases hcases with ⟨hsome, hsc⟩ | ⟨hnone, hdoc, hsc⟩
    · exact hsc
    · exfalso
      obtain ⟨x, hx, hfst⟩ := List.mem_map.mp hin
      have h5 : ¬ (x.1 == ts.1) = true := List.find?_eq_none.mp hnone x hx
      exact h5 (by simp [hfst])
  · intro hnin
    rcases hcases with ⟨hsome, hsc⟩ | ⟨hnone, hdoc, hsc⟩
    · exfalso
      rw [List.find?_isSome] at hsome
      obtain ⟨x, hx, hbeq⟩ := hsome
      simp only [beq_iff_eq] at hbeq
      exact hnin (List.mem_map.mpr ⟨x, hx, hbeq⟩)
    · exact hsc

/-- Witness for C6 at a concrete input: document 2 is promoted to position
1 from inside the organic list and is scored `BASE_PIN_SCORE - 1`. -/
theorem C6_witness :
    ((2, 999999) : TokenScore) ∈ applyPinningRules
        ⟨fun s => if s = "b" then some 2 else none, fun _ => true⟩
        ⟨[⟨"r1", [⟨.contains, "q"⟩], ⟨[⟨"b", 1⟩]⟩⟩]⟩ [(1, 9), (2, 8)] (some "q")
    ∧ (999999 : Int) = BASE_PIN_SCORE - 1 :=
  ⟨by decide,
   (C6_pin_scores ⟨fun s => if s = "b" then some 2 else none, fun _ => true⟩
      ⟨[⟨"r1", [⟨.contains, "q"⟩], ⟨[⟨"b", 1⟩]⟩⟩]⟩ [(1, 9), (2, 8)] (some "q")
      (2, 999999) 1 (by decide) rfl).1 (by decide)⟩

/-- Concrete engine for the C1 counterexample. -/
def c1Engine : OramaEngine :=
  ⟨fun s => if s = "x" then some 1 else if s = "y" then some 2 else
    if s = "z" then some 3 else none, fun _ => true⟩

/-- Concrete store for the C1 counterexample: three matching rules whose
flattened promotion sequence is [(x, 5), (y, 5), (x, 1)]. -/
def c1Store : PinningStore :=
  ⟨[⟨"r1", [⟨.contains, "q"⟩], ⟨[⟨"x", 5⟩]⟩⟩,
    ⟨"r2", [⟨.contains, "q"⟩], ⟨[⟨"y", 5⟩]⟩⟩,
    ⟨"r3", [⟨.contains, "q"⟩], ⟨[⟨"x", 1⟩]⟩⟩]⟩

/-- Counterexample to claim C1: the flattened promotion sequence is
[(x, 5), (y, 5), (x, 1)], with the promotions of documents 1 (= x) and
2 (= y) both requesting position 5 and the x-promotion coming earlier.
The claim requires the later (y, 5) promotion to be skipped, yet the code
pins document 2 at position 5 — it appears in the final output with pin
score 999995 instead of staying at its organic score 8 — because the
conflict loop iterates the position-sorted sequence [(x, 1), (x, 5),
(y, 5)], in which (x, 5) is dropped as a duplicate of its own document
before (y, 5) is considered. -/
theorem C1_counterexample :
    flattenedPromotionsOf c1Store (some "q") = [⟨"x", 5⟩, ⟨"y", 5⟩, ⟨"x", 1⟩]
    ∧ getInternalDocumentId c1Engine "x" = some 1
    ∧ getInternalDocumentId c1Engine "y" = some 2
    ∧ List.lookup 2 (promotionsMapOf c1Engine c1Store (some "q")) = some 5
    ∧ List.lookup 1 (promotionsMapOf c1Engine c1Store (some "q")) = some 1
    ∧ applyPinningRules c1Engine c1Store [(1, 9), (2, 8), (3, 7)] (some "q")
        = [(3, 7), (1, 999999), (2, 999995)] :=
  ⟨rfl, rfl, rfl, rfl, rfl, rfl⟩

/-- Claim C1 as amended: `applyPinningRules` resolves conflicts by
iterating the flattened promotion sequence sorted stably by ascending
position, not the flattened sequence itself; during that iteration a valid
promotion of an unpinned document is skipped when its position is already
taken, and claims its position (recording document, position, and taken
slot) when it is free. -/
theorem C1_sorted_first_wins :
    (∀ (store : PinningStore) (q : Option String),
      sortedPromotionsOf store q = (flattenedPromotionsOf store q).insertionSort promLe)
    ∧ ∀ (o : OramaEngine) (s : ResolveState) (prom : Promotion) (id : InternalDocumentID),
        getInternalDocumentId o prom.doc_id = some id →
        List.lookup id s.promotionsMap = none →
        ((s.positionsTaken.contains prom.position = true → resolveStep o s prom = s)
          ∧ (s.positionsTaken.contains prom.position = false →
              resolveStep o s prom
                = ⟨s.pinnedInternalIds ++ [id], s.promotionsMap ++ [(id, prom.position)],
                   s.positionsTaken ++ [prom.position]⟩)) := by
  refine ⟨fun store q => rfl, ?_⟩
  intro o s prom id hres hlk
  have hmain : resolveStep o s prom
      = if s.positionsTaken.contains prom.position then s
        else ⟨s.pinnedInternalIds ++ [id], s.promotionsMap ++ [(id, prom.position)],
          s.positionsTaken ++ [prom.position]⟩ := by
    simp only [resolveStep, hres, hlk]
  constructor
  · intro hc
    rw [hmain, if_pos hc]
  · intro hc
    rw [hmain, if_neg (by rw [hc]; exact Bool.false_ne_true)]

/-- Witness for the amended C1 at a concrete input: a valid promotion of
an unpinned document with a free position claims it. -/
theorem C1_witness :
    resolveStep ⟨fun _ => some 7, fun _ => true⟩ ⟨[], [], []⟩ ⟨"w", 3⟩
      = ⟨[7], [(7, 3)], [3]⟩ :=
  ((C1_sorted_first_wins.2 ⟨fun _ => some 7, fun _ => true⟩ ⟨[], [], []⟩ ⟨"w", 3⟩ 7
    rfl rfl).2) rfl

/-- Concrete engine for the C2 counterexample. -/
def c2Engine : OramaEngine :=
  ⟨fun s => if s = "a" then some 1 else if s = "b" then some 2 else
    if s = "c" then some 3 else if s = "d" then some 4 else none, fun _ => true⟩

/-- Concrete store for the C2 counterexample: one matching rule promoting
four out-of-organic documents to the sparse positions 4, 5, 6, 7. -/
def c2Store : PinningStore :=
  ⟨[⟨"r1", [⟨.contains, "q"⟩], ⟨[⟨"a", 4⟩, ⟨"b", 5⟩, ⟨"c", 6⟩, ⟨"d", 7⟩]⟩⟩]⟩

/-- Counterexample to claim C2: document 1 is pinned with claimed position
4, the final result list has length 6 (so 4 is strictly less than the
length), yet the entry at index 4 is document 3, not document 1: the
append phase placed the sparse pins at indices 2..5 while growing the list
past their claimed positions. -/
theorem C2_counterexample :
    List.lookup 1 (promotionsMapOf c2Engine c2Store (some "q")) = some 4
    ∧ applyPinningRules c2Engine c2Store [(5, 9), (6, 8)] (some "q")
        = [(5, 9), (6, 8), (1, 0), (2, 0), (3, 0), (4, 0)]
    ∧ (applyPinningRules c2Engine c2Store [(5, 9), (6, 8)] (some "q")).get? 4
        = some (3, 0)
    ∧ (3 : Nat) ≠ 1 :=
  ⟨rfl, rfl, rfl, by decide⟩

/-- Claim C2 as amended: position honoring holds for the interleaving
walk: for every pin with claimed position `p` strictly below the length of
the walk-built prefix, the final result list carries exactly that pin at
index `p`.  (Pins placed by the trailing append phase may land below their
claimed position, as the counterexample shows.) -/
theorem C2_walk_position_honored (o : OramaEngine) (store : PinningStore)
    (uda : List TokenScore) (q : Option String) (p : Nat) (e : TokenScore)
    (hlk : List.lookup p (pinnedByPositionOf o store uda q) = some e)
    (hp : p < (walkOf o store uda q).length) :
    (applyPinningRules o store uda q).get? p = some e := by
  rw [applyPinningRules_split, List.get?_eq_getElem?, List.getElem?_append_left hp,
    ← List.get?_eq_getElem?]
  have hwg := walk_get (pinnedByPositionOf o store uda q) (unpinnedOf o store uda q)
    ((unpinnedOf o store uda q).length + (pinnedResultsOf o store uda q).length) 0 0 p e
    hlk (Nat.zero_le p) (by rw [Nat.sub_zero, ← walkOf_def]; exact hp)
  rw [Nat.sub_zero, ← walkOf_def] at hwg
  exact hwg

/-- Witness for the amended C2 at a concrete input: document 2 pinned at
position 0 occupies index 0 of the output. -/
theorem C2_witness :
    (applyPinningRules ⟨fun s => if s = "b" then some 2 else none, fun _ => true⟩
        ⟨[⟨"r1", [⟨.contains, "q"⟩], ⟨[⟨"b", 0⟩]⟩⟩]⟩ [(1, 9), (2, 8)] (some "q")).get? 0
      = some (2, 1000000) :=
  C2_walk_position_honored ⟨fun s => if s = "b" then some 2 else none, fun _ => true⟩
    ⟨[⟨"r1", [⟨.contains, "q"⟩], ⟨[⟨"b", 0⟩]⟩⟩]⟩ [(1, 9), (2, 8)] (some "q")
    0 (2, 1000000) rfl (by decide)

/-- Counterexample to claim C3: at a state where document 1 is already
placed at position 5 (with 5 in the taken set), processing a promotion of
the same document at the strictly smaller position 2 updates the placement
map to position 2 but leaves the taken set unchanged: position 5 is not
released and position 2 is not claimed, contradicting the claimed
reclaim-and-claim behavior. -/
theorem C3_counterexample :
    resolveStep ⟨fun _ => some 1, fun _ => true⟩ ⟨[1], [(1, 5)], [5]⟩ ⟨"x", 2⟩
        = ⟨[1], [(1, 2)], [5]⟩
    ∧ (5 : Nat) ∈ (resolveStep ⟨fun _ => some 1, fun _ => true⟩ ⟨[1], [(1, 5)], [5]⟩
        ⟨"x", 2⟩).positionsTaken
    ∧ (2 : Nat) ∉ (resolveStep ⟨fun _ => some 1, fun _ => true⟩ ⟨[1], [(1, 5)], [5]⟩
        ⟨"x", 2⟩).positionsTaken :=
  ⟨rfl, by decide, by decide⟩

/-- Claim C3 as amended: when a document already placed at position `q0`
is promoted again at a strictly smaller position, the resolution step
records the new position in the placement map but leaves the taken set
(and the pinned-id set) unchanged — the old slot is not released and the
new one is not claimed; when the new position is not smaller, the state is
unchanged. -/
theorem C3_move_map_only (o : OramaEngine) (s : ResolveState) (prom : Promotion)
    (id : InternalDocumentID) (q0 : Nat)
    (hres : getInternalDocumentId o prom.doc_id = some id)
    (hlk : List.lookup id s.promotionsMap = some q0) :
    (prom.position < q0 →
        resolveStep o s prom
          = { s with promotionsMap := assocSet s.promotionsMap id prom.position })
    ∧ (¬ prom.position < q0 → resolveStep o s prom = s)
    ∧ (resolveStep o s prom).positionsTaken = s.positionsTaken
    ∧ (resolveStep o s prom).pinnedInternalIds = s.pinnedInternalIds := by
  have hmain : resolveStep o s prom
      = if prom.position < q0
        then { s with promotionsMap := assocSet s.promotionsMap id prom.position }
        else s := by
    simp only [resolveStep, hres, hlk]
  refine ⟨?_, ?_, ?_, ?_⟩
  · intro h
    rw [hmain, if_pos h]
  · intro h
    rw [hmain, if_neg h]
  · rw [hmain]
    by_cases h : prom.position < q0
    · rw [if_pos h]
    · rw [if_neg h]
  · rw [hmain]
    by_cases h : prom.position < q0
    · rw [if_pos h]
    · rw [if_neg h]

/-- Witness for the amended C3 at a concrete input: a repeated promotion
at a non-smaller position leaves the state unchanged. -/
theorem C3_witness :
    resolveStep ⟨fun _ => some 3, fun _ => true⟩ ⟨[3], [(3, 4)], [4]⟩ ⟨"m", 9⟩
      = ⟨[3], [(3, 4)], [4]⟩ :=
  (C3_move_map_only ⟨fun _ => some 3, fun _ => true⟩ ⟨[3], [(3, 4)], [4]⟩ ⟨"m", 9⟩
    3 4 rfl rfl).2.1 (by decide)

/-- Counterexample to claim C5: quantified over every organic list the
claim fails — an organic input that already repeats internal id 1 passes
through an empty store unchanged, so the output contains id 1 twice. -/
theorem C5_counterexample :
    ¬ ((applyPinningRules ⟨fun _ => none, fun _ => true⟩ ⟨[]⟩ [(1, 9), (1, 9)]
        (some "q")).map Prod.fst).Nodup := by
  decide

/-- Claim C5 as amended: provided the organic list itself carries no
duplicate internal id, the output of `applyPinningRules` contains no
internal id twice, and every internal id in the output is either an id
from the organic list or the resolved id of a promoted document that
exists in the document store. -/
theorem C5_nodup_subset (o : OramaEngine) (store : PinningStore) (uda : List TokenScore)
    (q : Option String) (hnd : (uda.map Prod.fst).Nodup) :
    ((applyPinningRules o store uda q).map Prod.fst).Nodup
    ∧ ∀ ts ∈ applyPinningRules o store uda q,
        ts.1 ∈ uda.map Prod.fst
        ∨ ((∃ prom ∈ flattenedPromotionsOf store q,
              getInternalDocumentId o prom.doc_id = some ts.1) ∧ o.hasDoc ts.1 = true) := by
  constructor
  · rw [List.nodup_iff_count_le_one]
    intro id
    by_cases hid : id ∈ (promotionsMapOf o store q).map Prod.fst
    · by_cases hed : ∃ e0 ∈ pinnedResultsOf o store uda q, e0.1 = id
      · obtain ⟨e0, he0, he0id⟩ := hed
        have huniq : ∀ ts ∈ applyPinningRules o store uda q, ts.1 = id → ts = e0 := by
          intro ts hts htsid
          have h2 : ts ∈ pinnedResultsOf o store uda q :=
            out_pinned_mem o store uda q ts hts (htsid ▸ hid)
          exact List.inj_on_of_nodup_map (pinnedResultsOf_ids_nodup o store uda q) h2 he0
            (by rw [htsid, he0id])
        rw [count_fst_eq_count_elem id e0 he0id _ huniq,
          pin_count_one o store uda q e0 he0]
      · have hzero : id ∉ (applyPinningRules o store uda q).map Prod.fst := by
          intro hmem
          obtain ⟨ts, hts, hfst⟩ := List.mem_map.mp hmem
          exact hed ⟨ts, out_pinned_mem o store uda q ts hts (hfst ▸ hid), hfst⟩
        rw [List.count_eq_zero.mpr hzero]
        omega
    · have hP : ∀ ts ∈ applyPinningRules o store uda q, ts.1 = id →
          (!(pinnedIdsOf o store q).contains ts.1) = true := by
        intro ts hts htsid
        have hnm : ts.1 ∉ pinnedIdsOf o store q := by
          rw [pinnedIdsOf_eq, htsid]
          exact hid
        rw [contains_eq_false_of_not_mem hnm]
        rfl
      rw [← count_fst_filter _ id _ hP, out_filter_unpinned]
      unfold unpinnedOf
      exact le_trans (((List.filter_sublist uda).map Prod.fst).count_le id)
        (List.nodup_iff_count_le_one.mp hnd id)
  · intro ts hts
    rcases out_mem_cases o store uda q ts hts with h | h
    · exact Or.inl (List.mem_map.mpr ⟨ts, (List.mem_filter.mp h).1, rfl⟩)
    · obtain ⟨p2, hp2mem, hcases⟩ := mem_buildPinned o uda _ ts h
      rcases hcases with ⟨hsome, _⟩ | ⟨_, hdoc, _⟩
      · rw [List.find?_isSome] at hsome
        obtain ⟨x, hx, hbeq⟩ := hsome
        simp only [beq_iff_eq] at hbeq
        exact Or.inl (List.mem_map.mpr ⟨x, hx, hbeq⟩)
      · refine Or.inr ⟨?_, hdoc⟩
        obtain ⟨prom, hprom, hres⟩ := promMap_resolved o store q (ts.1, p2) hp2mem
        exact ⟨prom, hprom, hres⟩

/-- Witness for the amended C5 at a concrete input: with a duplicate-free
organic list the output ids are duplicate-free. -/
theorem C5_witness :
    ((applyPinningRules ⟨fun s => if s = "b" then some 2 else none, fun _ => true⟩
        ⟨[⟨"r1", [⟨.contains, "q"⟩], ⟨[⟨"b", 0⟩]⟩⟩]⟩ [(1, 9), (2, 8)]
        (some "q")).map Prod.fst).Nodup :=
  (C5_nodup_subset ⟨fun s => if s = "b" then some 2 else none, fun _ => true⟩
    ⟨[⟨"r1", [⟨.contains, "q"⟩], ⟨[⟨"b", 0⟩]⟩⟩]⟩ [(1, 9), (2, 8)] (some "q")
    (by decide)).1

end Orama
